import Mathlib

/-!
Verification development for the Commit Synthesis & Anonymization Engine of
`git-activity-tracer-extended`: a shallow embedding of
`src/lib/git/anonymizer.ts`, `src/lib/git/repositoryManager.ts` and
`src/formatters/git.ts`, together with theorems about the embedded code.
-/

namespace GAT

/-! ### SHA-256 (FIPS 180-4)

`anonymizer.ts` calls Node's `createHash('sha256').update(input).digest('hex')`.
The hash itself lives in Node's standard library, so it is embedded here as a
direct implementation of the SHA-256 standard, operating on the UTF-8 bytes of
the input string (Node's default encoding for `update`).  32-bit machine words
are modelled as `Nat` with explicit reduction modulo `2^32`.
-/

/-- `2^32`, the word modulus of SHA-256. -/
def w32 : Nat := 4294967296

/-- `2^32 - 1`, the all-ones 32-bit mask (used for bitwise complement). -/
def m32 : Nat := 4294967295

/-- Rotate a 32-bit word right by `n` positions. -/
def rotr32 (x n : Nat) : Nat := ((x >>> n) ||| (x <<< (32 - n))) % w32

/-- The 64 round constants K of FIPS 180-4 §4.2.2 (decimal rendering of the
fractional cube-root words). -/
def sha256K : List Nat :=
  [1116352408, 1899447441, 3049323471, 3921009573, 961987163, 1508970993,
   2453635748, 2870763221, 3624381080, 310598401, 607225278, 1426881987,
   1925078388, 2162078206, 2614888103, 3248222580, 3835390401, 4022224774,
   264347078, 604807628, 770255983, 1249150122, 1555081692, 1996064986,
   2554220882, 2821834349, 2952996808, 3210313671, 3336571891, 3584528711,
   113926993, 338241895, 666307205, 773529912, 1294757372, 1396182291,
   1695183700, 1986661051, 2177026350, 2456956037, 2730485921, 2820302411,
   3259730800, 3345764771, 3516065817, 3600352804, 4094571909, 275423344,
   430227734, 506948616, 659060556, 883997877, 958139571, 1322822218,
   1537002063, 1747873779, 1955562222, 2024104815, 2227730452, 2361852424,
   2428436474, 2756734187, 3204031479, 3329325298]

/-- The initial hash state H0 of FIPS 180-4 §5.3.3 (decimal rendering of the
fractional square-root words). -/
def sha256Init : List Nat :=
  [1779033703, 3144134277, 1013904242, 2773480762,
   1359893119, 2600822924, 528734635, 1541459225]

/-- The eight big-endian bytes of the 64-bit message-length field. -/
def lenBytes (n : Nat) : List Nat :=
  [(n >>> 56) % 256, (n >>> 48) % 256, (n >>> 40) % 256, (n >>> 32) % 256,
   (n >>> 24) % 256, (n >>> 16) % 256, (n >>> 8) % 256, n % 256]

/-- SHA-256 padding: append `0x80`, zero bytes up to 56 mod 64, then the
bit length as an 8-byte big-endian integer. -/
def padMessage (msg : List Nat) : List Nat :=
  let L := msg.length
  let r := (L + 1) % 64
  let zeros := if r ≤ 56 then 56 - r else 120 - r
  msg ++ [128] ++ List.replicate zeros 0 ++ lenBytes (L * 8)

/-- Split a byte list into 64-byte blocks (fuel-indexed; the fuel is always
sufficient because each step consumes at least one element). -/
def toBlocksAux : Nat → List Nat → List (List Nat)
  | 0, _ => []
  | _ + 1, [] => []
  | fuel + 1, l => l.take 64 :: toBlocksAux fuel (l.drop 64)

/-- Split a padded message into its 64-byte blocks. -/
def toBlocks (l : List Nat) : List (List Nat) := toBlocksAux l.length l

/-- Assemble a big-endian 32-bit word from four bytes. -/
def bytesToWordBE (b0 b1 b2 b3 : Nat) : Nat := b0 * 16777216 + b1 * 65536 + b2 * 256 + b3

/-- σ₀ of the SHA-256 message schedule. -/
def smallSigma0 (x : Nat) : Nat := (rotr32 x 7) ^^^ (rotr32 x 18) ^^^ (x >>> 3)

/-- σ₁ of the SHA-256 message schedule. -/
def smallSigma1 (x : Nat) : Nat := (rotr32 x 17) ^^^ (rotr32 x 19) ^^^ (x >>> 10)

/-- Σ₀ of the SHA-256 compression function. -/
def bigSigma0 (x : Nat) : Nat := (rotr32 x 2) ^^^ (rotr32 x 13) ^^^ (rotr32 x 22)

/-- Σ₁ of the SHA-256 compression function. -/
def bigSigma1 (x : Nat) : Nat := (rotr32 x 6) ^^^ (rotr32 x 11) ^^^ (rotr32 x 25)

/-- The first 16 schedule words of a block, read big-endian. -/
def initialW (block : List Nat) : List Nat :=
  (List.range 16).map fun i =>
    bytesToWordBE (block.getD (4 * i) 0) (block.getD (4 * i + 1) 0)
      (block.getD (4 * i + 2) 0) (block.getD (4 * i + 3) 0)

/-- The full 64-word message schedule of a block. -/
def fullW (block : List Nat) : Array Nat :=
  (List.range 48).foldl
    (fun w _ =>
      let i := w.size
      w.push ((w.getD (i - 16) 0 + smallSigma0 (w.getD (i - 15) 0) + w.getD (i - 7) 0 +
        smallSigma1 (w.getD (i - 2) 0)) % w32))
    (initialW block).toArray

/-- The working state of the compression function: the registers a–h. -/
structure Sha256State where
  a : Nat
  b : Nat
  c : Nat
  d : Nat
  e : Nat
  f : Nat
  g : Nat
  h : Nat

/-- One round of the SHA-256 compression function. -/
def compressStep (st : Sha256State) (wk : Nat × Nat) : Sha256State :=
  let ch := (st.e &&& st.f) ^^^ ((st.e ^^^ m32) &&& st.g)
  let temp1 := (st.h + bigSigma1 st.e + ch + wk.2 + wk.1) % w32
  let maj := (st.a &&& st.b) ^^^ (st.a &&& st.c) ^^^ (st.b &&& st.c)
  let temp2 := (bigSigma0 st.a + maj) % w32
  ⟨(temp1 + temp2) % w32, st.a, st.b, st.c, (st.d + temp1) % w32, st.e, st.f, st.g⟩

/-- Compress one 64-byte block into the running hash state. -/
def compressBlock (hs : List Nat) (block : List Nat) : List Nat :=
  let kw := (fullW block).toList.zip sha256K
  let st0 : Sha256State :=
    ⟨hs.getD 0 0, hs.getD 1 0, hs.getD 2 0, hs.getD 3 0,
     hs.getD 4 0, hs.getD 5 0, hs.getD 6 0, hs.getD 7 0⟩
  let st := kw.foldl compressStep st0
  [(hs.getD 0 0 + st.a) % w32, (hs.getD 1 0 + st.b) % w32, (hs.getD 2 0 + st.c) % w32,
   (hs.getD 3 0 + st.d) % w32, (hs.getD 4 0 + st.e) % w32, (hs.getD 5 0 + st.f) % w32,
   (hs.getD 6 0 + st.g) % w32, (hs.getD 7 0 + st.h) % w32]

/-- SHA-256 digest (as 32 bytes) of a byte list. -/
def sha256Bytes (msg : List Nat) : List Nat :=
  let hfinal := (toBlocks (padMessage msg)).foldl compressBlock sha256Init
  (hfinal.map fun x => [(x >>> 24) % 256, (x >>> 16) % 256, (x >>> 8) % 256, x % 256]).flatten

/-- The sixteen lowercase hexadecimal digits. -/
def hexDigits : List Char := "0123456789abcdef".toList

/-- The lowercase hexadecimal digit of a value below 16. -/
def hexDigitChar (n : Nat) : Char := hexDigits.getD n '0'

/-- The two lowercase hex digits of a byte. -/
def byteToHex (b : Nat) : List Char := [hexDigitChar (b / 16 % 16), hexDigitChar (b % 16)]

/-- The lowercase-hex SHA-256 digest (as a character list) of a byte list;
models `.digest('hex')`. -/
def sha256HexChars (msg : List Nat) : List Char := ((sha256Bytes msg).map byteToHex).flatten

/-- UTF-8 encoding of one character (scalar values only, as in Lean's `Char`). -/
def utf8Char (c : Char) : List Nat :=
  let n := c.toNat
  if n < 128 then [n]
  else if n < 2048 then [192 ||| (n >>> 6), 128 ||| (n &&& 63)]
  else if n < 65536 then
    [224 ||| (n >>> 12), 128 ||| ((n >>> 6) &&& 63), 128 ||| (n &&& 63)]
  else
    [240 ||| (n >>> 18), 128 ||| ((n >>> 12) &&& 63), 128 ||| ((n >>> 6) &&& 63), 128 ||| (n &&& 63)]

/-- UTF-8 encoding of a string, as Node's `hash.update(input)` consumes it. -/
def utf8Encode (s : String) : List Nat := (s.toList.map utf8Char).flatten

/-- `createConsistentHash` from `anonymizer.ts`: the first `len` lowercase hex
characters of the SHA-256 digest of `input`.  The source declares `len` with
default value 8; every call site in the repository uses that default. -/
def createConsistentHash (input : String) (len : Nat) : String :=
  String.mk ((sha256HexChars (utf8Encode input)).take len)

/-! ### Conventional-commit prefix matching

`anonymizeMessage` matches `/^(feat|fix|docs|style|refactor|perf|test|chore|build|ci|revert)(\([\w-]+\))?:\s*/i`
against the message.  The regex is embedded as an explicit parser over the
character list.  Because no two keywords of the alternation are prefixes of
one another, trying the keywords in the alternation's order with no further
backtracking computes exactly the regex's match.
-/

/-- The recognized conventional-commit type keywords, in the order of the
regex alternation in `anonymizer.ts`. -/
def conventionalTypes : List String :=
  ["feat", "fix", "docs", "style", "refactor", "perf", "test", "chore", "build", "ci", "revert"]

/-- A word character of the scope class `[\w-]`: ASCII alphanumeric,
underscore, or hyphen. -/
def isWordChar (c : Char) : Bool := c.isAlphanum || c = '_' || c = '-'

/-- JavaScript's `\s` class (ECMA-262 WhiteSpace ∪ LineTerminator). -/
def isJsSpace (c : Char) : Bool :=
  c = ' ' || c = '\t' || c = '\n' || c.toNat = 11 || c.toNat = 12 || c = '\r' ||
  c.toNat = 0xa0 || c.toNat = 0x1680 || (0x2000 ≤ c.toNat && c.toNat ≤ 0x200a) ||
  c.toNat = 0x2028 || c.toNat = 0x2029 || c.toNat = 0x202f || c.toNat = 0x205f ||
  c.toNat = 0x3000 || c.toNat = 0xfeff

/-- Greedy span: the longest run of characters satisfying `p`, and the rest. -/
def spanChars (p : Char → Bool) : List Char → List Char × List Char
  | [] => ([], [])
  | c :: cs =>
    if p c then
      let r := spanChars p cs
      (c :: r.1, r.2)
    else ([], c :: cs)

/-- Case-insensitively strip a (lowercase ASCII) pattern from the front of the
input; on success return the matched characters as written and the rest.
Models the regex's case-insensitive literal matching (a non-ASCII character
never canonicalizes to an ASCII pattern character). -/
def stripCI : List Char → List Char → Option (List Char × List Char)
  | [], l => some ([], l)
  | _ :: _, [] => none
  | p :: ps, c :: cs =>
    if c.toLower = p then
      match stripCI ps cs with
      | some (w, r) => some (c :: w, r)
      | none => none
    else none

/-- Match `(\([\w-]+\))` at the front of the input. -/
def matchScope (l : List Char) : Option (List Char × List Char) :=
  match l with
  | [] => none
  | c :: rest =>
    if c = '(' then
      let s := spanChars isWordChar rest
      match s.2 with
      | [] => none
      | c2 :: rest2 =>
        if s.1.isEmpty then none
        else if c2 = ')' then some ('(' :: s.1 ++ [')'], rest2) else none
    else none

/-- Match `:\s*` (a colon and a greedy run of whitespace) at the front. -/
def matchColonWs (l : List Char) : Option (List Char × List Char) :=
  match l with
  | [] => none
  | c :: rest =>
    if c = ':' then
      let s := spanChars isJsSpace rest
      some (':' :: s.1, s.2)
    else none

/-- Try one keyword of the alternation: the keyword (case-insensitive), an
optional parenthesized scope, a colon and optional whitespace.  Returns the
full matched text (`match[0]`) and the remainder of the message. -/
def tryKeyword (kw : String) (l : List Char) : Option (List Char × List Char) :=
  match stripCI kw.toList l with
  | none => none
  | some (kwAs, rest) =>
    match matchScope rest with
    | some (sc, rest1) =>
      match matchColonWs rest1 with
      | some (cw, rest2) => some (kwAs ++ sc ++ cw, rest2)
      | none => none
    | none =>
      match matchColonWs rest with
      | some (cw, rest2) => some (kwAs ++ cw, rest2)
      | none => none

/-- The full conventional-prefix pattern: `message.match(conventionalPrefixPattern)`,
returning (`match[0]`, remainder) on success. -/
def matchConventional (l : List Char) : Option (List Char × List Char) :=
  conventionalTypes.findSome? fun kw => tryKeyword kw l

/-! ### The anonymizer (`src/lib/git/anonymizer.ts`)

Optional (`string | undefined`) values are embedded as `Option String`;
JavaScript's falsiness test `!message` is true for both `undefined` (`none`)
and the empty string (`some ""`).
-/

/-- `anonymizeMessage` from `anonymizer.ts`. -/
def anonymizeMessage (message : Option String) : String :=
  match message with
  | none => "hash_" ++ createConsistentHash "empty" 8
  | some m =>
    if m = "" then "hash_" ++ createConsistentHash "empty" 8
    else
      match matchConventional m.toList with
      | some (pre, content) =>
        String.mk pre ++ "hash_" ++ createConsistentHash (String.mk content) 8
      | none => "hash_" ++ createConsistentHash m 8

/-- `anonymizeRepository` from `anonymizer.ts`. -/
def anonymizeRepository (repository : Option String) : String :=
  match repository with
  | none => "repo_" ++ createConsistentHash "unknown" 8
  | some r =>
    if r = "" then "repo_" ++ createConsistentHash "unknown" 8
    else "repo_" ++ createConsistentHash r 8

/-- The contribution kind tag `'commit' | 'pr' | 'review'` of `anonymizeText`. -/
inductive ContributionKind where
  | commit
  | pr
  | review
deriving DecidableEq, Repr

/-- The literal tag string of a contribution kind. -/
def ContributionKind.tag : ContributionKind → String
  | .commit => "commit"
  | .pr => "pr"
  | .review => "review"

/-- `anonymizeText` from `anonymizer.ts`. -/
def anonymizeText (text : Option String) (kind : ContributionKind) : String :=
  match text with
  | none => kind.tag ++ "_hash_" ++ createConsistentHash (kind.tag ++ "_empty") 8
  | some t =>
    if t = "" then kind.tag ++ "_hash_" ++ createConsistentHash (kind.tag ++ "_empty") 8
    else
      match kind with
      | .commit => anonymizeMessage (some t)
      | _ => kind.tag ++ "_hash_" ++ createConsistentHash t 8

/-! ### Data model

`src/types.ts` is not part of the delivered sources; the `Contribution` and
formatter types below are modelled from the spec (§3, §6).  A contribution's
`timestamp` must be parseable to an absolute instant; parsing itself is done
by the external `dayjs` library, so the model carries the parsed instant
(epoch milliseconds, `dayjs(ts).valueOf()` = `new Date(ts).getTime()`) as an
`Int`, and its decimal rendering stands in for the timestamp's rendering in
interpolated strings.
-/

/-- Modelled from the spec: one activity record (§3).  `type` is the tag
(e.g. `commit`/`pr`/`review`); the optional fields are `string | undefined`. -/
structure Contribution where
  type : String
  timestamp : Int
  repository : Option String
  projectId : Option String
  target : Option String
  text : Option String
  url : Option String
deriving DecidableEq, Repr

/-- Modelled from the spec: formatter options (§6), carrying at minimum
`anonymize` and `withLinks`. -/
structure FormatterOptions where
  anonymize : Bool
  withLinks : Bool
deriving DecidableEq, Repr

/-- Modelled from the spec: a formatter result with a summary `content`. -/
structure FormatterResult where
  content : String
deriving DecidableEq, Repr

/-- JavaScript truthiness of an optional string: `undefined` and `""` are
falsy, every other string is truthy. -/
def jsTruthy : Option String → Bool
  | none => false
  | some s => !(s == "")

/-! ### `RepositoryManager` (`src/lib/git/repositoryManager.ts`)

The external collaborators (filesystem, git binary, `process.env`) are
modelled as one explicit state `GitWorld`; each git invocation's success or
failure is an oracle carried in the state (`commitOutcomes`), since it is
decided by the external tool.  `console.warn`/`console.log` output is
modelled as the `warnings`/`logs` streams.
-/

/-- One commit of the synthetic repository: the message, the `--author`
identity string, and the instant passed as author/committer date. -/
structure CommitRecord where
  message : String
  author : String
  date : Int
deriving DecidableEq, Repr

/-- The ambient process environment: a map from variable names to optional
values (`none` = unset). -/
def EnvMap : Type := String → Option String

/-- `process.env[k] = v`. -/
def setEnv (e : EnvMap) (k v : String) : EnvMap :=
  fun x => if x = k then some v else e x

/-- `delete process.env[k]`. -/
def unsetEnv (e : EnvMap) (k : String) : EnvMap :=
  fun x => if x = k then none else e x

/-- The whole world the git subsystem touches: the repository directory and
its git state at the fixed target path, the process environment, the
outcome oracle for successive `git commit` invocations (`none` = success,
`some msg` = the invocation throws with message `msg`), and the console. -/
structure GitWorld where
  gitAvailable : Bool
  cwd : String
  dirExists : Bool
  gitDirExists : Bool
  gpgSignDisabled : Bool
  ancestorIsRepo : Bool
  commits : List CommitRecord
  env : EnvMap
  commitOutcomes : Nat → Option String
  warnings : List String
  logs : List String

/-- `CommitOptions` from `repositoryManager.ts` (the `date : Date` field is
the parsed instant in epoch milliseconds). -/
structure CommitOptions where
  message : String
  authorName : String
  authorEmail : String
  date : Int
deriving DecidableEq, Repr

/-- `Date.prototype.toISOString` of the instant.  The exact calendar
rendering lives in the JS runtime; only the value's pass-through to the
ambient date variables matters to this development, so the decimal rendering
stands in for it. -/
def dateToISOString (ms : Int) : String := toString ms

/-- The `RepositoryManager` constructor: create the repository directory if
it does not exist (`mkdirSync`), then bind `simpleGit` to that path. -/
def mkRepositoryManager (w : GitWorld) : GitWorld :=
  if w.dirExists then w else { w with dirExists := true }

/-- `initializeRepository`: detect an existing repository by the presence of
the `.git` directory directly at the target path (deliberately not by
`checkIsRepo()`, which could find an ancestor repository — hence the
`ancestorIsRepo` component of the world is never consulted).  If present,
report `false` with no mutation; otherwise run `git init`, set
`commit.gpgsign=false`, and report `true`. -/
def initializeRepository (w : GitWorld) : Bool × GitWorld :=
  if w.gitDirExists then (false, w)
  else (true, { w with gitDirExists := true, gpgSignDisabled := true })

/-- The body of the restoration loop: set the variable back to its saved
value, or delete it if it was originally unset. -/
def restoreOne (acc : EnvMap) (kv : String × Option String) : EnvMap :=
  match kv.2 with
  | some v => setEnv acc kv.1 v
  | none => unsetEnv acc kv.1

/-- `restoreEnvironmentVariables`: restore each saved variable to its
original value, deleting those that were originally unset. -/
def restoreEnvironmentVariables (original : List (String × Option String)) (e : EnvMap) : EnvMap :=
  original.foldl restoreOne e

/-- `createCommit`: save the four ambient date/identity variables, set them
for this commit, invoke `git commit --allow-empty --message m --author a`
(whose success or failure `rawOutcome` is decided by the external tool), and
restore the variables in the `finally` block regardless of the outcome.  The
raised error (if any) propagates to the caller as the first component. -/
def createCommit (options : CommitOptions) (rawOutcome : Option String) (w : GitWorld) :
    Option String × GitWorld :=
  let authorString := options.authorName ++ " <" ++ options.authorEmail ++ ">"
  let dateString := dateToISOString options.date
  let originalEnv : List (String × Option String) :=
    [("GIT_AUTHOR_DATE", w.env "GIT_AUTHOR_DATE"),
     ("GIT_COMMITTER_DATE", w.env "GIT_COMMITTER_DATE"),
     ("GIT_COMMITTER_NAME", w.env "GIT_COMMITTER_NAME"),
     ("GIT_COMMITTER_EMAIL", w.env "GIT_COMMITTER_EMAIL")]
  let env1 :=
    setEnv (setEnv (setEnv (setEnv w.env "GIT_AUTHOR_DATE" dateString)
      "GIT_COMMITTER_DATE" dateString) "GIT_COMMITTER_NAME" options.authorName)
      "GIT_COMMITTER_EMAIL" options.authorEmail
  let w1 := { w with env := env1 }
  let w2 :=
    match rawOutcome with
    | none =>
      { w1 with commits := w1.commits ++ [CommitRecord.mk options.message authorString options.date] }
    | some _ => w1
  (rawOutcome, { w2 with env := restoreEnvironmentVariables originalEnv w2.env })

/-- `getCommitCount`: the total of `git log`; a failing query (e.g. an empty
history) is absorbed as 0, which coincides with the length of the modelled
commit list. -/
def getCommitCount (w : GitWorld) : Nat := w.commits.length

/-! ### `GitFormatter` (`src/formatters/git.ts`) -/

/-- `join(': ')` / `join('\n')` of JavaScript arrays. -/
def joinSep (sep : String) : List String → String
  | [] => ""
  | s :: rest =>
    match rest with
    | [] => s
    | _ :: _ => s ++ sep ++ joinSep sep rest

/-- Read an environment variable with a default for unset or empty values
(JS `process.env.X || dflt`). -/
def envOrDefault (e : EnvMap) (k dflt : String) : String :=
  match e k with
  | none => dflt
  | some v => if v = "" then dflt else v

/-- The fixed output directory of the git export. -/
def outputDirectory : String := "git-contributions-export"

/-- The default author name. -/
def defaultAuthorName : String := "Git Activity Tracer"

/-- The default author email. -/
def defaultAuthorEmail : String := "noreply@example.com"

/-- The fatal message when git is unavailable. -/
def gitUnavailableMessage : String :=
  "Git is not installed or not available in PATH. Please install git to use the git export format."

/-- The informational result for an empty contribution batch. -/
def noContributionsMessage : String :=
  "No contributions to export. The repository was not created because there are no contributions in this range."

/-- The parts of a commit message, in the source's push order: `[type]`,
repository (anonymized on request), `(target)`, `{projectId}`, text
(anonymized on request); each optional field is pushed only when truthy. -/
def messageParts (c : Contribution) (anonymize : Bool) : List String :=
  ["[" ++ c.type ++ "]"]
  ++ (if jsTruthy c.repository then
        [if anonymize then anonymizeRepository c.repository else c.repository.getD ""]
      else [])
  ++ (if jsTruthy c.target then ["(" ++ c.target.getD "" ++ ")"] else [])
  ++ (if jsTruthy c.projectId then ["\x7b" ++ c.projectId.getD "" ++ "\x7d"] else [])
  ++ (if jsTruthy c.text then
        [if anonymize then anonymizeMessage c.text else c.text.getD ""]
      else [])

/-- `buildCommitMessage` from `git.ts`: the truthy parts joined with `': '`. -/
def buildCommitMessage (c : Contribution) (anonymize : Bool) : String :=
  joinSep ": " (messageParts c anonymize)

/-- The timestamp comparison `(a, b) => dayjs(a.timestamp).valueOf() - dayjs(b.timestamp).valueOf()`. -/
def tsLE (a b : Contribution) : Bool := decide (a.timestamp ≤ b.timestamp)

/-- Insert a contribution in front of the first element with a
greater-or-equal timestamp (so an incoming element goes before the elements
of equal timestamp that were originally behind it). -/
def insertTs (x : Contribution) : List Contribution → List Contribution
  | [] => [x]
  | y :: l => if x.timestamp ≤ y.timestamp then x :: y :: l else y :: insertTs x l

/-- `[...contributions].sort(byTimestamp)`: JavaScript\'s `Array.prototype.sort`
is stable (ES2019), and the stable ascending reordering of a list is uniquely
determined — it is sorted by timestamp, and for each timestamp value it
enumerates the carriers in input order — so this stable insertion sort
computes exactly the same list as the runtime\'s sort. -/
def sortByTimestamp (contributions : List Contribution) : List Contribution :=
  contributions.foldr insertTs []

/-- The progress notification emitted after every 100th successful commit. -/
def progressLog (commitCount total : Nat) : String :=
  "  Progress: " ++ toString commitCount ++ "/" ++ toString total ++ " commits created..."

/-- The warning recorded when one contribution's commit fails
(`console.warn` with the template and the error message). -/
def commitWarning (c : Contribution) (err : String) : String :=
  "Warning: Failed to create commit for " ++ c.type ++ " at " ++ toString c.timestamp ++ ": " ++ err

/-- The per-contribution commit loop of `format`: build the message, attempt
`createCommit` (the `idx`-th git invocation consults the outcome oracle),
count successes and emit progress every 100th, absorb failures into a
warning and continue with the next contribution. -/
def runCommits (authorName authorEmail : String) (anonymize : Bool) (total : Nat) :
    List Contribution → Nat → Nat → GitWorld → Nat × GitWorld
  | [], _, commitCount, w => (commitCount, w)
  | c :: rest, idx, commitCount, w =>
    let message := buildCommitMessage c anonymize
    let res :=
      createCommit (CommitOptions.mk message authorName authorEmail c.timestamp)
        (w.commitOutcomes idx) w
    match res.1 with
    | none =>
      let newCount := commitCount + 1
      let w2 :=
        if newCount % 100 = 0 then
          { res.2 with logs := res.2.logs ++ [progressLog newCount total] }
        else res.2
      runCommits authorName authorEmail anonymize total rest (idx + 1) newCount w2
    | some e =>
      runCommits authorName authorEmail anonymize total rest (idx + 1) commitCount
        { res.2 with warnings := res.2.warnings ++ [commitWarning c e] }

/-- The summary lines of a completed export, exactly as pushed in `git.ts`
(the anonymization line appears only when anonymization is enabled). -/
def summaryLines (repositoryPath : String) (totalCommits newCommits exported : Nat)
    (authorName authorEmail : String) (anonymize : Bool) : List String :=
  ["\n✅ Git export completed successfully!\n",
   "Repository location: " ++ repositoryPath,
   "Total commits: " ++ toString totalCommits,
   "New commits created: " ++ toString newCommits,
   "Contributions exported: " ++ toString exported,
   "Author: " ++ authorName ++ " <" ++ authorEmail ++ ">"]
  ++ (if anonymize then ["Anonymization: enabled"] else [])
  ++ ["\nTo push to GitHub:",
      "  cd " ++ outputDirectory,
      "  git remote add origin git@github.com:username/activity-showcase.git",
      "  git branch -M main",
      "  git push -u origin main --force"]

/-- The fixed repository location: `join(process.cwd(), outputDirectory)`. -/
def repoPath (w : GitWorld) : String := w.cwd ++ "/" ++ outputDirectory

/-- `GitFormatter.format`: probe git, short-circuit on an empty batch,
resolve the author identity, create/initialize the repository, record the
baseline count, stable-sort by timestamp, run the partial-failure-tolerant
commit loop, recount, and assemble the summary. -/
def format (contributions : List Contribution) (options : FormatterOptions) (w : GitWorld) :
    Except String FormatterResult × GitWorld :=
  if w.gitAvailable = false then (Except.error gitUnavailableMessage, w)
  else if contributions.length = 0 then (Except.ok ⟨noContributionsMessage⟩, w)
  else
    let authorName := envOrDefault w.env "GIT_AUTHOR_NAME" defaultAuthorName
    let authorEmail := envOrDefault w.env "GIT_AUTHOR_EMAIL" defaultAuthorEmail
    let repositoryPath := repoPath w
    let w1 := mkRepositoryManager w
    let init := initializeRepository w1
    let initialCount := if init.1 then 0 else getCommitCount init.2
    let sorted := sortByTimestamp contributions
    let run := runCommits authorName authorEmail options.anonymize sorted.length sorted 0 0 init.2
    let totalCommits := getCommitCount run.2
    let newCommits := totalCommits - initialCount
    (Except.ok ⟨joinSep "\n"
      (summaryLines repositoryPath totalCommits newCommits contributions.length
        authorName authorEmail options.anonymize)⟩, run.2)

/-- The resolved author name of a `format` run. -/
def authorNameOf (w : GitWorld) : String := envOrDefault w.env "GIT_AUTHOR_NAME" defaultAuthorName

/-- The resolved author email of a `format` run. -/
def authorEmailOf (w : GitWorld) : String := envOrDefault w.env "GIT_AUTHOR_EMAIL" defaultAuthorEmail

/-- The world after the `RepositoryManager` constructor and
`initializeRepository` have run. -/
def worldAfterInit (w : GitWorld) : GitWorld := (initializeRepository (mkRepositoryManager w)).2

/-- The baseline commit count recorded before the commit loop. -/
def baselineOf (w : GitWorld) : Nat :=
  if (initializeRepository (mkRepositoryManager w)).1 then 0 else getCommitCount (worldAfterInit w)

/-- The world after a whole (non-short-circuited) `format` run. -/
def finalWorldOf (c : List Contribution) (o : FormatterOptions) (w : GitWorld) : GitWorld :=
  (runCommits (authorNameOf w) (authorEmailOf w) o.anonymize (sortByTimestamp c).length
    (sortByTimestamp c) 0 0 (worldAfterInit w)).2

/-! ### Substring machinery

A small executable substring checker (used to state "the summary contains
fact X"), with the lemmas needed to establish containment for abstract
strings. -/

/-- Does `l` start with `pat`? -/
def startsWithL : List Char → List Char → Bool
  | _, [] => true
  | [], _ :: _ => false
  | a :: as, b :: bs => a == b && startsWithL as bs

/-- Does `l` contain `pat` as a contiguous run? -/
def hasSubL (l pat : List Char) : Bool :=
  match l with
  | [] => startsWithL [] pat
  | c :: t => startsWithL (c :: t) pat || hasSubL t pat

/-- Does the string `s` contain the string `pat`? -/
def containsStr (s pat : String) : Bool := hasSubL s.data pat.data

theorem startsWithL_nil (l : List Char) : startsWithL l [] = true := by cases l <;> rfl

theorem startsWithL_iff (pat : List Char) : ∀ l : List Char,
    (startsWithL l pat = true ↔ ∃ v, l = pat ++ v) := by
  induction pat with
  | nil => intro l; simp [startsWithL_nil]
  | cons b bs ih =>
    intro l
    cases l with
    | nil => simp [startsWithL]
    | cons a as =>
      simp only [startsWithL, Bool.and_eq_true, beq_iff_eq, ih, List.cons_append]
      constructor
      · rintro ⟨rfl, v, rfl⟩
        exact ⟨v, rfl⟩
      · rintro ⟨v, h⟩
        injection h with h1 h2
        exact ⟨h1, v, h2⟩

theorem hasSubL_iff (pat : List Char) : ∀ l : List Char,
    (hasSubL l pat = true ↔ ∃ u v, l = u ++ pat ++ v) := by
  intro l
  induction l with
  | nil =>
    cases pat with
    | nil =>
      constructor
      · intro _
        exact ⟨[], [], rfl⟩
      · intro _
        rfl
    | cons p ps =>
      constructor
      · intro h
        exact absurd h (by simp [hasSubL, startsWithL])
      · rintro ⟨u, v, h⟩
        have hlen := congrArg List.length h
        simp [List.length_append] at hlen
        omega
  | cons c t ih =>
    simp only [hasSubL, Bool.or_eq_true, startsWithL_iff, ih]
    constructor
    · rintro (⟨v, hv⟩ | ⟨u, v, hu⟩)
      · exact ⟨[], v, by simpa using hv⟩
      · exact ⟨c :: u, v, by simp [hu]⟩
    · rintro ⟨u, v, h⟩
      cases u with
      | nil => exact Or.inl ⟨v, by simpa using h⟩
      | cons x xs =>
        simp only [List.cons_append, List.append_assoc] at h
        injection h with h1 h2
        exact Or.inr ⟨xs, v, by simp [h2]⟩

theorem containsStr_iff (s pat : String) :
    containsStr s pat = true ↔ ∃ u v, s.data = u ++ pat.data ++ v := by
  simp [containsStr, hasSubL_iff]

/-- Every member of the joined list is a substring of the join. -/
theorem containsStr_joinSep (sep line : String) (lines : List String) (h : line ∈ lines) :
    containsStr (joinSep sep lines) line = true := by
  induction lines with
  | nil => cases h
  | cons s rest ih =>
    cases rest with
    | nil =>
      cases h with
      | head =>
        show containsStr line line = true
        exact (containsStr_iff _ _).mpr ⟨[], [], by simp⟩
      | tail _ hmem => cases hmem
    | cons s2 rest2 =>
      cases h with
      | head =>
        show containsStr (line ++ sep ++ joinSep sep (s2 :: rest2)) line = true
        exact (containsStr_iff _ _).mpr
          ⟨[], sep.data ++ (joinSep sep (s2 :: rest2)).data, by simp⟩
      | tail _ hmem =>
        have hrec := ih hmem
        rcases (containsStr_iff _ _).mp hrec with ⟨u, v, hs⟩
        show containsStr (s ++ sep ++ joinSep sep (s2 :: rest2)) line = true
        exact (containsStr_iff _ _).mpr ⟨s.data ++ sep.data ++ u, v, by simp [hs]⟩

/-- A substring of a member of the joined list is a substring of the join. -/
theorem containsStr_joinSep_of_mem (sep line pat : String) (lines : List String)
    (h : line ∈ lines) (hp : containsStr line pat = true) :
    containsStr (joinSep sep lines) pat = true := by
  rcases (containsStr_iff _ _).mp hp with ⟨a, b, hline⟩
  rcases (containsStr_iff _ _).mp (containsStr_joinSep sep line lines h) with ⟨x, y, hall⟩
  exact (containsStr_iff _ _).mpr ⟨x ++ a, b ++ y, by simp [hall, hline]⟩

/-! ### Environment save/restore -/

/-- Point update of an environment map. -/
def updEnv (e : EnvMap) (k : String) (v : Option String) : EnvMap :=
  fun x => if x = k then v else e x

theorem restoreOne_eq (e : EnvMap) (k : String) (v : Option String) :
    restoreOne e (k, v) = updEnv e k v := by
  cases v <;> funext x <;> simp [restoreOne, setEnv, unsetEnv, updEnv]

theorem setEnv_eq (e : EnvMap) (k v : String) : setEnv e k v = updEnv e k (some v) := rfl

/-- Setting the four ambient variables and then restoring them from the
saved values is the identity on the environment. -/
theorem restoreAfterSet (e : EnvMap) (d n em : String) :
    restoreEnvironmentVariables
      [("GIT_AUTHOR_DATE", e "GIT_AUTHOR_DATE"), ("GIT_COMMITTER_DATE", e "GIT_COMMITTER_DATE"),
       ("GIT_COMMITTER_NAME", e "GIT_COMMITTER_NAME"), ("GIT_COMMITTER_EMAIL", e "GIT_COMMITTER_EMAIL")]
      (setEnv (setEnv (setEnv (setEnv e "GIT_AUTHOR_DATE" d) "GIT_COMMITTER_DATE" d)
        "GIT_COMMITTER_NAME" n) "GIT_COMMITTER_EMAIL" em) = e := by
  funext k
  simp only [restoreEnvironmentVariables, List.foldl, restoreOne_eq, setEnv_eq, updEnv]
  by_cases k1 : k = "GIT_AUTHOR_DATE" <;> by_cases k2 : k = "GIT_COMMITTER_DATE" <;>
    by_cases k3 : k = "GIT_COMMITTER_NAME" <;> by_cases k4 : k = "GIT_COMMITTER_EMAIL" <;>
    simp_all

/-- The commit record appended on a successful `createCommit`. -/
def commitRecordOf (options : CommitOptions) : CommitRecord :=
  CommitRecord.mk options.message (options.authorName ++ " <" ++ options.authorEmail ++ ">")
    options.date

/-- Full characterization of `createCommit`: the outcome propagates, a record
is appended exactly on success, and everything else — the environment in
particular — is left as it was. -/
theorem createCommit_eq (options : CommitOptions) (out : Option String) (w : GitWorld) :
    createCommit options out w =
      (out, { w with
        commits := w.commits ++ (if out = none then [commitRecordOf options] else []) }) := by
  cases out <;> simp [createCommit, commitRecordOf, restoreAfterSet]

/-- C1: after any `createCommit` call — whether the underlying commit
invocation succeeded or raised an error — each of the four ambient
date/identity variables `GIT_AUTHOR_DATE`, `GIT_COMMITTER_DATE`,
`GIT_COMMITTER_NAME`, `GIT_COMMITTER_EMAIL` equals exactly its pre-call
value (in particular, a variable unset before the call is unset afterwards);
indeed the whole environment is restored. -/
theorem createCommit_restores_environment (options : CommitOptions) (out : Option String)
    (w : GitWorld) :
    ((createCommit options out w).2.env "GIT_AUTHOR_DATE" = w.env "GIT_AUTHOR_DATE") ∧
    ((createCommit options out w).2.env "GIT_COMMITTER_DATE" = w.env "GIT_COMMITTER_DATE") ∧
    ((createCommit options out w).2.env "GIT_COMMITTER_NAME" = w.env "GIT_COMMITTER_NAME") ∧
    ((createCommit options out w).2.env "GIT_COMMITTER_EMAIL" = w.env "GIT_COMMITTER_EMAIL") ∧
    (∀ k : String, (createCommit options out w).2.env k = w.env k) := by
  rw [createCommit_eq]
  exact ⟨rfl, rfl, rfl, rfl, fun _ => rfl⟩

/-- C5: `initializeRepository` decides by the presence of the `.git`
directory directly at the target path alone: if present it returns
"already existed" (`false`) with no mutation at all, otherwise it
initializes, disables commit signing and returns "newly created" (`true`);
the result never depends on whether an ancestor directory is a repository,
and once the repository is present every further call is a no-op that still
reports "already existed". -/
theorem initializeRepository_direct_detection_idempotent (w : GitWorld) :
    (initializeRepository w =
      if w.gitDirExists then (false, w)
      else (true, { w with gitDirExists := true, gpgSignDisabled := true })) ∧
    (∀ b : Bool, (initializeRepository { w with ancestorIsRepo := b }).1 =
      (initializeRepository w).1) ∧
    ((initializeRepository (initializeRepository w).2).1 = false) ∧
    ((initializeRepository (initializeRepository w).2).2 = (initializeRepository w).2) := by
  by_cases h : w.gitDirExists <;> simp [initializeRepository, h]

/-- C7: with git available and an empty contribution batch, `format` returns
the informational "nothing to export" result and leaves the world exactly as
it was: no directory creation, no repository initialization, no commit. -/
theorem format_empty_batch_no_mutation (o : FormatterOptions) (w : GitWorld)
    (hg : w.gitAvailable = true) :
    format [] o w = (Except.ok ⟨noContributionsMessage⟩, w) ∧
    containsStr noContributionsMessage "No contributions to export" = true := by
  refine ⟨?_, by decide⟩
  simp [format, hg]

/-- A concrete world for witnesses: git available, no directory yet, empty
environment, every git invocation succeeding. -/
def sampleWorld : GitWorld :=
  GitWorld.mk true "/work" false false false false [] (fun _ => none) (fun _ => none) [] []

theorem format_empty_batch_no_mutation_witness :
    format [] (FormatterOptions.mk false false) sampleWorld =
      (Except.ok ⟨noContributionsMessage⟩, sampleWorld) ∧
    containsStr noContributionsMessage "No contributions to export" = true :=
  format_empty_batch_no_mutation (FormatterOptions.mk false false) sampleWorld rfl

/-! ### Characterizing the commit loop -/

/-- The commit records the loop appends, given the outcome oracle. -/
def expectedCommits (an ae : String) (anon : Bool) (oc : Nat → Option String) :
    List Contribution → Nat → List CommitRecord
  | [], _ => []
  | c :: rest, idx =>
    (if oc idx = none then
      [commitRecordOf (CommitOptions.mk (buildCommitMessage c anon) an ae c.timestamp)]
     else []) ++ expectedCommits an ae anon oc rest (idx + 1)

/-- The warnings the loop records, given the outcome oracle. -/
def expectedWarnings (oc : Nat → Option String) : List Contribution → Nat → List String
  | [], _ => []
  | c :: rest, idx =>
    (match oc idx with
     | none => []
     | some e => [commitWarning c e]) ++ expectedWarnings oc rest (idx + 1)

/-- The number of successful commits of the loop. -/
def successCount (oc : Nat → Option String) : List Contribution → Nat → Nat
  | [], _ => 0
  | _ :: rest, idx => (if oc idx = none then 1 else 0) + successCount oc rest (idx + 1)

/-- The progress notifications the loop emits. -/
def expectedLogs (oc : Nat → Option String) (total : Nat) :
    List Contribution → Nat → Nat → List String
  | [], _, _ => []
  | _ :: rest, idx, cnt =>
    if oc idx = none then
      (if (cnt + 1) % 100 = 0 then [progressLog (cnt + 1) total] else []) ++
        expectedLogs oc total rest (idx + 1) (cnt + 1)
    else expectedLogs oc total rest (idx + 1) cnt

/-- Full characterization of the commit loop. -/
theorem runCommits_eq (an ae : String) (anon : Bool) (total : Nat) :
    ∀ (l : List Contribution) (idx cnt : Nat) (w : GitWorld),
    runCommits an ae anon total l idx cnt w =
      (cnt + successCount w.commitOutcomes l idx,
       { w with
         commits := w.commits ++ expectedCommits an ae anon w.commitOutcomes l idx,
         warnings := w.warnings ++ expectedWarnings w.commitOutcomes l idx,
         logs := w.logs ++ expectedLogs w.commitOutcomes total l idx cnt }) := by
  intro l
  induction l with
  | nil =>
    intro idx cnt w
    simp [runCommits, successCount, expectedCommits, expectedWarnings, expectedLogs]
  | cons c rest ih =>
    intro idx cnt w
    simp only [runCommits, createCommit_eq]
    cases hoc : w.commitOutcomes idx with
    | none =>
      by_cases hm : (cnt + 1) % 100 = 0 <;>
        simp [hoc, hm, ih, successCount, expectedCommits, expectedWarnings, expectedLogs,
          List.append_assoc, Nat.add_assoc]
    | some e =>
      simp [hoc, ih, successCount, expectedCommits, expectedWarnings, expectedLogs,
        List.append_assoc]

/-- The constructor and `initializeRepository` touch only the directory and
repository flags. -/
theorem worldAfterInit_fields (w : GitWorld) :
    (worldAfterInit w).commits = w.commits ∧ (worldAfterInit w).env = w.env ∧
    (worldAfterInit w).commitOutcomes = w.commitOutcomes ∧
    (worldAfterInit w).warnings = w.warnings ∧ (worldAfterInit w).logs = w.logs ∧
    (worldAfterInit w).cwd = w.cwd ∧ (worldAfterInit w).gitAvailable = w.gitAvailable := by
  unfold worldAfterInit initializeRepository mkRepositoryManager
  by_cases h1 : w.dirExists <;> by_cases h2 : w.gitDirExists <;> simp [h1, h2]

/-- The final world of a `format` run, in terms of the loop characterization. -/
theorem finalWorldOf_eq (c : List Contribution) (o : FormatterOptions) (w : GitWorld) :
    finalWorldOf c o w =
      { worldAfterInit w with
        commits := w.commits ++ expectedCommits (authorNameOf w) (authorEmailOf w) o.anonymize
          w.commitOutcomes (sortByTimestamp c) 0,
        warnings := w.warnings ++ expectedWarnings w.commitOutcomes (sortByTimestamp c) 0,
        logs := w.logs ++
          expectedLogs w.commitOutcomes (sortByTimestamp c).length (sortByTimestamp c) 0 0 } := by
  obtain ⟨hcom, henv, hoc, hwarn, hlog, hcwd, hga⟩ := worldAfterInit_fields w
  unfold finalWorldOf
  rw [runCommits_eq, hcom, hoc, hwarn, hlog]
  simp [hoc]

/-- `format` on git-available, non-empty input: the result is the summary
built from the final world, and the final world itself. -/
theorem format_eq (c : List Contribution) (o : FormatterOptions) (w : GitWorld)
    (hg : w.gitAvailable = true) (hne : c ≠ []) :
    format c o w =
      (Except.ok ⟨joinSep "\n" (summaryLines (repoPath w) (getCommitCount (finalWorldOf c o w))
        (getCommitCount (finalWorldOf c o w) - baselineOf w) c.length (authorNameOf w)
        (authorEmailOf w) o.anonymize)⟩, finalWorldOf c o w) := by
  have hlen : ¬ c.length = 0 := by simpa using hne
  unfold format
  rw [if_neg (by simp [hg]), if_neg hlen]
  rfl

/-! ### Loop lemmas for partial failure and ordering -/

theorem expectedCommits_append (an ae : String) (anon : Bool) (oc : Nat → Option String) :
    ∀ (l1 l2 : List Contribution) (idx : Nat),
    expectedCommits an ae anon oc (l1 ++ l2) idx =
      expectedCommits an ae anon oc l1 idx ++ expectedCommits an ae anon oc l2 (idx + l1.length) := by
  intro l1
  induction l1 with
  | nil => intro l2 idx; simp [expectedCommits]
  | cons c rest ih =>
    intro l2 idx
    simp only [List.cons_append, expectedCommits, List.length_cons, List.append_eq]
    rw [ih, show idx + (rest.length + 1) = idx + 1 + rest.length from by omega,
      List.append_assoc]

theorem expectedWarnings_append (oc : Nat → Option String) :
    ∀ (l1 l2 : List Contribution) (idx : Nat),
    expectedWarnings oc (l1 ++ l2) idx =
      expectedWarnings oc l1 idx ++ expectedWarnings oc l2 (idx + l1.length) := by
  intro l1
  induction l1 with
  | nil => intro l2 idx; simp [expectedWarnings]
  | cons c rest ih =>
    intro l2 idx
    simp only [List.cons_append, expectedWarnings, List.length_cons, List.append_eq]
    rw [ih, show idx + (rest.length + 1) = idx + 1 + rest.length from by omega,
      List.append_assoc]

theorem expectedCommits_of_success (an ae : String) (anon : Bool) (oc : Nat → Option String) :
    ∀ (l : List Contribution) (idx : Nat),
    (∀ i, idx ≤ i → i < idx + l.length → oc i = none) →
    expectedCommits an ae anon oc l idx =
      l.map fun x =>
        commitRecordOf (CommitOptions.mk (buildCommitMessage x anon) an ae x.timestamp) := by
  intro l
  induction l with
  | nil => intro idx h; simp [expectedCommits]
  | cons c rest ih =>
    intro idx h
    have h0 : oc idx = none := h idx (Nat.le_refl _) (by simp)
    simp [expectedCommits, h0, ih (idx + 1) fun i h1 h2 => h i (by omega) (by simp at h2 ⊢; omega)]

theorem expectedWarnings_of_success (oc : Nat → Option String) :
    ∀ (l : List Contribution) (idx : Nat),
    (∀ i, idx ≤ i → i < idx + l.length → oc i = none) →
    expectedWarnings oc l idx = [] := by
  intro l
  induction l with
  | nil => intro idx h; simp [expectedWarnings]
  | cons c rest ih =>
    intro idx h
    have h0 : oc idx = none := h idx (Nat.le_refl _) (by simp)
    simp [expectedWarnings, h0, ih (idx + 1) fun i h1 h2 => h i (by omega) (by simp at h2 ⊢; omega)]

/-! ### The stable ascending sort -/

theorem mem_insertTs (x z : Contribution) : ∀ l : List Contribution,
    z ∈ insertTs x l ↔ z = x ∨ z ∈ l := by
  intro l
  induction l with
  | nil => simp [insertTs]
  | cons y l ih =>
    by_cases h : x.timestamp ≤ y.timestamp <;> simp [insertTs, h, ih] <;> tauto

theorem perm_insertTs (x : Contribution) : ∀ l : List Contribution,
    List.Perm (insertTs x l) (x :: l) := by
  intro l
  induction l with
  | nil => simp [insertTs]
  | cons y l ih =>
    by_cases h : x.timestamp ≤ y.timestamp
    · simp [insertTs, h]
    · simp only [insertTs, if_neg h]
      exact (ih.cons y).trans (List.Perm.swap x y l)

theorem sortByTimestamp_perm (c : List Contribution) : List.Perm (sortByTimestamp c) c := by
  induction c with
  | nil => simp [sortByTimestamp]
  | cons a rest ih =>
    show List.Perm (insertTs a (sortByTimestamp rest)) (a :: rest)
    exact (perm_insertTs a (sortByTimestamp rest)).trans (ih.cons a)

theorem sortByTimestamp_length (c : List Contribution) :
    (sortByTimestamp c).length = c.length :=
  (sortByTimestamp_perm c).length_eq

theorem pairwise_insertTs (x : Contribution) : ∀ l : List Contribution,
    List.Pairwise (fun a b => a.timestamp ≤ b.timestamp) l →
    List.Pairwise (fun a b => a.timestamp ≤ b.timestamp) (insertTs x l) := by
  intro l
  induction l with
  | nil => simp [insertTs]
  | cons y l ih =>
    intro hp
    rcases List.pairwise_cons.mp hp with ⟨hy, hl⟩
    by_cases h : x.timestamp ≤ y.timestamp
    · simp only [insertTs, if_pos h]
      refine List.Pairwise.cons ?_ hp
      intro z hz
      rcases List.mem_cons.mp hz with rfl | hz
      · exact h
      · exact le_trans h (hy z hz)
    · simp only [insertTs, if_neg h]
      refine List.Pairwise.cons ?_ (ih hl)
      intro z hz
      rcases (mem_insertTs x z l).mp hz with rfl | hz
      · omega
      · exact hy z hz

theorem sortByTimestamp_sorted (c : List Contribution) :
    List.Pairwise (fun a b => a.timestamp ≤ b.timestamp) (sortByTimestamp c) := by
  induction c with
  | nil => simp [sortByTimestamp]
  | cons a rest ih =>
    show List.Pairwise _ (insertTs a (sortByTimestamp rest))
    exact pairwise_insertTs a (sortByTimestamp rest) ih

theorem filter_insertTs (t : Int) (x : Contribution) : ∀ l : List Contribution,
    (insertTs x l).filter (fun z => z.timestamp == t) =
      if x.timestamp == t then x :: l.filter (fun z => z.timestamp == t)
      else l.filter (fun z => z.timestamp == t) := by
  intro l
  induction l with
  | nil => by_cases hx : x.timestamp == t <;> simp [insertTs, List.filter_cons, hx]
  | cons y l ih =>
    by_cases h : x.timestamp ≤ y.timestamp
    · by_cases hx : x.timestamp == t <;> simp [insertTs, h, List.filter_cons, hx]
    · by_cases hx : x.timestamp == t
      · have hxt : x.timestamp = t := by simpa using hx
        have hy : (y.timestamp == t) = false := by
          have : ¬ y.timestamp = t := by omega
          simpa using this
        simp [insertTs, if_neg h, List.filter_cons, hy, ih, hx]
      · simp only [insertTs, if_neg h, List.filter_cons, ih, hx, if_neg]
        by_cases hy : y.timestamp == t <;> simp [hy, ih, hx]

/-- Stability of the sort, as a filter identity: for every timestamp value,
the sorted list and the input enumerate the contributions carrying that
timestamp in the same order. -/
theorem sortByTimestamp_filter (c : List Contribution) (t : Int) :
    (sortByTimestamp c).filter (fun x => x.timestamp == t) =
      c.filter (fun x => x.timestamp == t) := by
  induction c with
  | nil => simp [sortByTimestamp]
  | cons a rest ih =>
    show (insertTs a (sortByTimestamp rest)).filter _ = _
    rw [filter_insertTs, List.filter_cons, ih]

/-- The success banner is always part of the summary. -/
theorem summary_banner (rp : String) (tc nc ex : Nat) (an ae : String) (anon : Bool) :
    containsStr (joinSep "\n" (summaryLines rp tc nc ex an ae anon))
      "Git export completed successfully" = true :=
  containsStr_joinSep_of_mem "\n" "\n✅ Git export completed successfully!\n"
    "Git export completed successfully" (summaryLines rp tc nc ex an ae anon)
    (by simp [summaryLines]) (by decide)

/-- C2: if exactly one of the N commit attempts fails and the rest succeed,
the loop still attempts everything: `format` returns a successful summary,
exactly N−1 new commits exist afterwards, and exactly one warning is
recorded, identifying the failed contribution by its type and original
timestamp (via `commitWarning`). -/
theorem format_single_failure_tolerated
    (c : List Contribution) (o : FormatterOptions) (w : GitWorld) (j : Nat)
    (hg : w.gitAvailable = true) (hne : c ≠ [])
    (hj : j < (sortByTimestamp c).length)
    (hfail : ∀ i, i < c.length → (w.commitOutcomes i = none ↔ i ≠ j)) :
    ∃ content w' e,
      format c o w = (Except.ok (FormatterResult.mk content), w') ∧
      w.commitOutcomes j = some e ∧
      w'.commits.length = w.commits.length + (c.length - 1) ∧
      w'.warnings = w.warnings ++ [commitWarning ((sortByTimestamp c).get ⟨j, hj⟩) e] ∧
      containsStr content "Git export completed successfully" = true := by
  have hlen : (sortByTimestamp c).length = c.length := sortByTimestamp_length c
  have hjc : j < c.length := hlen ▸ hj
  cases hoc : w.commitOutcomes j with
  | none => exact absurd rfl ((hfail j hjc).mp hoc)
  | some e =>
    have hsplit : sortByTimestamp c = (sortByTimestamp c).take j ++
        ((sortByTimestamp c).get ⟨j, hj⟩ :: (sortByTimestamp c).drop (j + 1)) := by
      rw [List.get_eq_getElem, List.getElem_cons_drop, List.take_append_drop]
    have htake_len : ((sortByTimestamp c).take j).length = j := by
      simp only [List.length_take]
      omega
    have hdrop_len : ((sortByTimestamp c).drop (j + 1)).length = c.length - (j + 1) := by
      simp only [List.length_drop]
      omega
    have htakeok : ∀ i, 0 ≤ i → i < 0 + ((sortByTimestamp c).take j).length →
        w.commitOutcomes i = none := by
      intro i _ hi
      rw [htake_len] at hi
      exact (hfail i (by omega)).mpr (by omega)
    have hdropok : ∀ i, j + 1 ≤ i → i < j + 1 + ((sortByTimestamp c).drop (j + 1)).length →
        w.commitOutcomes i = none := by
      intro i hi1 hi2
      rw [hdrop_len] at hi2
      exact (hfail i (by omega)).mpr (by omega)
    have hEC : expectedCommits (authorNameOf w) (authorEmailOf w) o.anonymize
        w.commitOutcomes (sortByTimestamp c) 0 =
        ((sortByTimestamp c).take j).map (fun x =>
          commitRecordOf (CommitOptions.mk (buildCommitMessage x o.anonymize)
            (authorNameOf w) (authorEmailOf w) x.timestamp)) ++
        ((sortByTimestamp c).drop (j + 1)).map (fun x =>
          commitRecordOf (CommitOptions.mk (buildCommitMessage x o.anonymize)
            (authorNameOf w) (authorEmailOf w) x.timestamp)) := by
      conv_lhs => rw [hsplit]
      rw [expectedCommits_append]
      rw [expectedCommits_of_success _ _ _ _ _ _ htakeok]
      simp only [expectedCommits, htake_len, Nat.zero_add, hoc]
      rw [expectedCommits_of_success _ _ _ _ _ _ hdropok]
      simp
    have hEW : expectedWarnings w.commitOutcomes (sortByTimestamp c) 0 =
        [commitWarning ((sortByTimestamp c).get ⟨j, hj⟩) e] := by
      conv_lhs => rw [hsplit]
      rw [expectedWarnings_append]
      rw [expectedWarnings_of_success _ _ _ htakeok]
      simp only [expectedWarnings, htake_len, Nat.zero_add, hoc]
      rw [expectedWarnings_of_success _ _ _ hdropok]
      simp
    refine ⟨_, _, e, format_eq c o w hg hne, rfl, ?_, ?_, ?_⟩
    · rw [finalWorldOf_eq]
      show (w.commits ++ _).length = _
      rw [hEC]
      simp only [List.length_append, List.length_map, htake_len, hdrop_len]
      omega
    · rw [finalWorldOf_eq]
      show w.warnings ++ _ = _
      rw [hEW]
    · exact summary_banner _ _ _ _ _ _ _

/-- C4: with every commit invocation succeeding, the created commits are
exactly the stable ascending reordering of the batch, mapped to records: the
sequence is sorted by timestamp, contributions with equal timestamps keep
their original relative order (the filter identity), and the sorted list is
a permutation of the (unchanged) input. -/
theorem format_commits_ascending_stable
    (c : List Contribution) (o : FormatterOptions) (w : GitWorld)
    (hg : w.gitAvailable = true) (hne : c ≠ [])
    (hall : ∀ i, i < c.length → w.commitOutcomes i = none) :
    ∃ content w',
      format c o w = (Except.ok (FormatterResult.mk content), w') ∧
      w'.commits = w.commits ++ (sortByTimestamp c).map (fun x =>
        commitRecordOf (CommitOptions.mk (buildCommitMessage x o.anonymize)
          (authorNameOf w) (authorEmailOf w) x.timestamp)) ∧
      List.Pairwise (fun a b => a.timestamp ≤ b.timestamp) (sortByTimestamp c) ∧
      (∀ t : Int, (sortByTimestamp c).filter (fun x => x.timestamp == t) =
        c.filter (fun x => x.timestamp == t)) ∧
      List.Perm (sortByTimestamp c) c := by
  have hok : ∀ i, 0 ≤ i → i < 0 + (sortByTimestamp c).length → w.commitOutcomes i = none := by
    intro i _ hi
    rw [Nat.zero_add, sortByTimestamp_length] at hi
    exact hall i hi
  refine ⟨_, _, format_eq c o w hg hne, ?_, sortByTimestamp_sorted c,
    fun t => sortByTimestamp_filter c t, sortByTimestamp_perm c⟩
  rw [finalWorldOf_eq]
  show w.commits ++ _ = _
  rw [expectedCommits_of_success _ _ _ _ _ _ hok]

/-- C9 (amended): for every completed non-empty `format` run the summary
contains the repository location, the total commit count, the new-commit
count (the re-queried total minus the baseline), the number of contributions
processed, the resolved author identity, the anonymization line whenever
anonymization is enabled (the line is simply omitted when it is disabled),
and the fixed push instructions. -/
theorem format_summary_contains_facts
    (c : List Contribution) (o : FormatterOptions) (w : GitWorld)
    (hg : w.gitAvailable = true) (hne : c ≠ []) :
    ∃ content w',
      format c o w = (Except.ok (FormatterResult.mk content), w') ∧
      containsStr content (repoPath w) = true ∧
      containsStr content ("Total commits: " ++ toString (getCommitCount w')) = true ∧
      containsStr content ("New commits created: " ++
        toString (getCommitCount w' - baselineOf w)) = true ∧
      containsStr content ("Contributions exported: " ++ toString c.length) = true ∧
      containsStr content ("Author: " ++ authorNameOf w ++ " <" ++ authorEmailOf w ++ ">") = true ∧
      (o.anonymize = true → containsStr content "Anonymization: enabled" = true) ∧
      containsStr content "To push to GitHub:" = true ∧
      containsStr content "git push -u origin main --force" = true := by
  refine ⟨_, _, format_eq c o w hg hne, ?_, ?_, ?_, ?_, ?_, ?_, ?_, ?_⟩
  · exact containsStr_joinSep_of_mem "\n" ("Repository location: " ++ repoPath w) (repoPath w)
      _ (by simp [summaryLines])
      ((containsStr_iff _ _).mpr ⟨"Repository location: ".data, [], by simp⟩)
  · exact containsStr_joinSep "\n" _ _ (by simp [summaryLines])
  · exact containsStr_joinSep "\n" _ _ (by simp [summaryLines])
  · exact containsStr_joinSep "\n" _ _ (by simp [summaryLines])
  · exact containsStr_joinSep "\n" _ _ (by simp [summaryLines])
  · intro ha
    exact containsStr_joinSep "\n" _ _ (by simp [summaryLines, ha])
  · exact containsStr_joinSep_of_mem "\n" "\nTo push to GitHub:" "To push to GitHub:"
      _ (by simp [summaryLines]) ((containsStr_iff _ _).mpr ⟨"\n".data, [], by simp⟩)
  · exact containsStr_joinSep_of_mem "\n" "  git push -u origin main --force"
      "git push -u origin main --force"
      _ (by simp [summaryLines]) ((containsStr_iff _ _).mpr ⟨"  ".data, [], by simp⟩)

/-- A concrete `commit` contribution used by witnesses and counterexamples. -/
def sampleContributionA : Contribution :=
  Contribution.mk "commit" 100 (some "owner/repo") none none (some "feat: add feature") none

/-- A concrete `pr` contribution used by witnesses and counterexamples. -/
def sampleContributionB : Contribution :=
  Contribution.mk "pr" 200 (some "owner/repo") none (some "main") (some "Fix bug") none

set_option maxRecDepth 40000 in
/-- C9 counterexample: a completed run with anonymization disabled whose
summary never states the anonymization status — the word `Anonymization`
does not occur at all — refuting the claim that the status is stated in the
disabled case too. -/
theorem summary_anonymization_absent_when_disabled :
    (format [sampleContributionA] (FormatterOptions.mk false false) sampleWorld).1 =
      Except.ok (FormatterResult.mk (joinSep "\n" (summaryLines (repoPath sampleWorld) 1 1 1
        defaultAuthorName defaultAuthorEmail false))) ∧
    containsStr (joinSep "\n" (summaryLines (repoPath sampleWorld) 1 1 1
      defaultAuthorName defaultAuthorEmail false)) "Anonymization" = false := by
  constructor
  · rfl
  · decide

theorem format_summary_contains_facts_witness :
    ∃ content w',
      format [sampleContributionA] (FormatterOptions.mk true false) sampleWorld =
        (Except.ok (FormatterResult.mk content), w') ∧
      containsStr content (repoPath sampleWorld) = true ∧
      containsStr content ("Total commits: " ++ toString (getCommitCount w')) = true ∧
      containsStr content ("New commits created: " ++
        toString (getCommitCount w' - baselineOf sampleWorld)) = true ∧
      containsStr content
        ("Contributions exported: " ++ toString [sampleContributionA].length) = true ∧
      containsStr content ("Author: " ++ authorNameOf sampleWorld ++ " <" ++
        authorEmailOf sampleWorld ++ ">") = true ∧
      ((FormatterOptions.mk true false).anonymize = true →
        containsStr content "Anonymization: enabled" = true) ∧
      containsStr content "To push to GitHub:" = true ∧
      containsStr content "git push -u origin main --force" = true :=
  format_summary_contains_facts [sampleContributionA] (FormatterOptions.mk true false)
    sampleWorld rfl (by decide)

/-- The world in which the second (index 1) git commit invocation fails. -/
def failWorld : GitWorld :=
  { sampleWorld with commitOutcomes := fun i => if i = 1 then some "boom" else none }

theorem format_single_failure_tolerated_witness :
    ∃ content w' e,
      format [sampleContributionB, sampleContributionA] (FormatterOptions.mk false false)
          failWorld = (Except.ok (FormatterResult.mk content), w') ∧
      failWorld.commitOutcomes 1 = some e ∧
      w'.commits.length = failWorld.commits.length +
        ([sampleContributionB, sampleContributionA].length - 1) ∧
      w'.warnings = failWorld.warnings ++
        [commitWarning ((sortByTimestamp [sampleContributionB, sampleContributionA]).get
          ⟨1, by decide⟩) e] ∧
      containsStr content "Git export completed successfully" = true :=
  format_single_failure_tolerated [sampleContributionB, sampleContributionA]
    (FormatterOptions.mk false false) failWorld 1 rfl (by decide) (by decide) (by decide)

theorem format_commits_ascending_stable_witness :
    ∃ content w',
      format [sampleContributionB, sampleContributionA] (FormatterOptions.mk false false)
          sampleWorld = (Except.ok (FormatterResult.mk content), w') ∧
      w'.commits = sampleWorld.commits ++
        (sortByTimestamp [sampleContributionB, sampleContributionA]).map (fun x =>
          commitRecordOf (CommitOptions.mk
            (buildCommitMessage x (FormatterOptions.mk false false).anonymize)
            (authorNameOf sampleWorld) (authorEmailOf sampleWorld) x.timestamp)) ∧
      List.Pairwise (fun a b => a.timestamp ≤ b.timestamp)
        (sortByTimestamp [sampleContributionB, sampleContributionA]) ∧
      (∀ t : Int,
        (sortByTimestamp [sampleContributionB, sampleContributionA]).filter
          (fun x => x.timestamp == t) =
        [sampleContributionB, sampleContributionA].filter (fun x => x.timestamp == t)) ∧
      List.Perm (sortByTimestamp [sampleContributionB, sampleContributionA])
        [sampleContributionB, sampleContributionA] :=
  format_commits_ascending_stable [sampleContributionB, sampleContributionA]
    (FormatterOptions.mk false false) sampleWorld rfl (by decide) (by decide)

/-! ### C6: commit-message assembly -/

/-- One optional field of the claim\'s field list: dropped entirely when
absent (and, per the code\'s truthiness test, when empty). -/
def optField (o : Option String) (f : String → String) : List String :=
  match o with
  | none => []
  | some s => if s = "" then [] else [f s]

/-- Modelled from the claim text (spec §4.3): the commit-message field list —
`[type]`, then repository (anonymized when requested), then `(target)`, then
`{projectId}`, then text (anonymized when requested), absent fields dropped
entirely — for comparison against `buildCommitMessage` from the source. -/
def claimParts (c : Contribution) (anonymize : Bool) : List String :=
  ["[" ++ c.type ++ "]"]
  ++ optField c.repository (fun r => if anonymize then anonymizeRepository (some r) else r)
  ++ optField c.target (fun t => "(" ++ t ++ ")")
  ++ optField c.projectId (fun p => "\x7b" ++ p ++ "\x7d")
  ++ optField c.text (fun t => if anonymize then anonymizeMessage (some t) else t)

/-- C6: the built commit message is exactly the claim\'s field list joined
with `': '`, and the two concrete examples of the spec come out verbatim. -/
theorem buildCommitMessage_matches_claim (c : Contribution) (anonymize : Bool) :
    buildCommitMessage c anonymize = joinSep ": " (claimParts c anonymize) ∧
    buildCommitMessage (Contribution.mk "commit" 0 (some "owner/repo") none none
      (some "feat: add feature") none) false = "[commit]: owner/repo: feat: add feature" ∧
    buildCommitMessage (Contribution.mk "pr" 0 (some "owner/repo") none (some "main")
      (some "Fix bug") none) false = "[pr]: owner/repo: (main): Fix bug" := by
  refine ⟨?_, rfl, rfl⟩
  obtain ⟨ty, ts, rep, pid, tgt, txt, url⟩ := c
  unfold buildCommitMessage
  congr 1
  rcases rep with _ | r <;> rcases pid with _ | p <;> rcases tgt with _ | tg <;>
    rcases txt with _ | tx <;>
    simp [messageParts, claimParts, optField, jsTruthy, ite_not]

/-! ### C8: hashing messages without a recognized prefix -/

theorem hexDigitChar_mem (n : Nat) : hexDigitChar n ∈ hexDigits := by
  unfold hexDigitChar
  by_cases h : n < hexDigits.length
  · rw [List.getD_eq_getElem _ _ h]
    exact List.getElem_mem h
  · rw [List.getD_eq_default _ _ (Nat.le_of_not_lt h)]
    decide

theorem sha256HexChars_mem (msg : List Nat) (ch : Char) (h : ch ∈ sha256HexChars msg) :
    ch ∈ hexDigits := by
  unfold sha256HexChars at h
  rcases List.mem_flatten.mp h with ⟨l, hl, hch⟩
  rcases List.mem_map.mp hl with ⟨b, _, rfl⟩
  unfold byteToHex at hch
  rcases List.mem_cons.mp hch with rfl | hch2
  · exact hexDigitChar_mem _
  · rcases List.mem_cons.mp hch2 with rfl | hfalse
    · exact hexDigitChar_mem _
    · cases hfalse

set_option maxRecDepth 40000 in
/-- C8 counterexample: the empty string is "present" yet is not hashed as
the entire (empty) message — it falls into the `'empty'` sentinel branch,
exactly like an absent message. -/
theorem anonymizeMessage_empty_not_whole_hash :
    anonymizeMessage (some "") ≠
      "hash_" ++ String.mk ((sha256HexChars (utf8Encode "")).take 8) ∧
    anonymizeMessage (some "") = "hash_" ++ createConsistentHash "empty" 8 ∧
    anonymizeMessage (some "") = anonymizeMessage none := by
  exact ⟨by decide, rfl, rfl⟩

/-- C8 (amended): every present **non-empty** message without a recognized
conventional-commit prefix maps to `'hash_'` followed by the first 8
lowercase hexadecimal characters of the SHA-256 digest of the entire
message; the empty string and an absent message both map to the `'empty'`
sentinel hash. -/
theorem anonymizeMessage_no_prefix_hashes_whole (m : String) (hne : m ≠ "")
    (hnp : matchConventional m.toList = none) :
    anonymizeMessage (some m) =
      "hash_" ++ String.mk ((sha256HexChars (utf8Encode m)).take 8) ∧
    (∀ ch ∈ (sha256HexChars (utf8Encode m)).take 8, ch ∈ hexDigits) ∧
    anonymizeMessage (some "") = anonymizeMessage none := by
  refine ⟨?_, ?_, rfl⟩
  · have hnp2 : matchConventional m.data = none := hnp
    simp [anonymizeMessage, hne, hnp2, createConsistentHash]
  · intro ch hch
    exact sha256HexChars_mem _ ch (List.take_subset _ _ hch)

set_option maxRecDepth 40000 in
theorem anonymizeMessage_no_prefix_hashes_whole_witness :
    anonymizeMessage (some "some random commit message") =
      "hash_" ++
        String.mk ((sha256HexChars (utf8Encode "some random commit message")).take 8) ∧
    (∀ ch ∈ (sha256HexChars (utf8Encode "some random commit message")).take 8,
      ch ∈ hexDigits) ∧
    anonymizeMessage (some "") = anonymizeMessage none :=
  anonymizeMessage_no_prefix_hashes_whole "some random commit message" (by decide) (by decide)

/-! ### C3: conventional-prefix preservation

The structural hypothesis of C3 describes a message of the shape
`keyword · optional-scope · colon · whitespace · rest`; the lemmas below show
the embedded regex matcher recognizes exactly that decomposition.
-/

/-- `headNotSat p l`: the first character of `l` (if any) does not satisfy
`p` — the maximal-munch condition for a greedy character-class star. -/
def headNotSat (p : Char → Bool) (l : List Char) : Bool :=
  match l with
  | [] => true
  | c :: _ => !(p c)

theorem spanChars_exact (p : Char → Bool) : ∀ (ws rest : List Char),
    (∀ c ∈ ws, p c = true) → headNotSat p rest = true →
    spanChars p (ws ++ rest) = (ws, rest) := by
  intro ws
  induction ws with
  | nil =>
    intro rest _ hrest
    cases rest with
    | nil => rfl
    | cons c cs =>
      simp only [headNotSat, Bool.not_eq_true'] at hrest
      simp [spanChars, hrest]
  | cons a as ih =>
    intro rest hws hrest
    have ha : p a = true := hws a (List.mem_cons_self a as)
    simp [spanChars, ha, ih rest (fun c hc => hws c (List.mem_cons_of_mem a hc)) hrest]

theorem stripCI_of_matches : ∀ (pat w t : List Char), w.map Char.toLower = pat →
    stripCI pat (w ++ t) = some (w, t) := by
  intro pat
  induction pat with
  | nil =>
    intro w t hw
    cases w with
    | nil => rfl
    | cons a as => simp at hw
  | cons p ps ih =>
    intro w t hw
    cases w with
    | nil => simp at hw
    | cons a as =>
      simp only [List.map_cons, List.cons.injEq] at hw
      obtain ⟨h1, h2⟩ := hw
      simp [stripCI, h1, ih as t h2]

theorem stripCI_sound : ∀ (pat l w r : List Char), stripCI pat l = some (w, r) →
    l = w ++ r ∧ w.map Char.toLower = pat := by
  intro pat
  induction pat with
  | nil =>
    intro l w r h
    simp only [stripCI, Option.some.injEq, Prod.mk.injEq] at h
    obtain ⟨rfl, rfl⟩ := h
    exact ⟨rfl, rfl⟩
  | cons p ps ih =>
    intro l w r h
    cases l with
    | nil => simp [stripCI] at h
    | cons c cs =>
      simp only [stripCI] at h
      by_cases hc : c.toLower = p
      · rw [if_pos hc] at h
        cases hs : stripCI ps cs with
        | none => rw [hs] at h; cases h
        | some pr =>
          obtain ⟨w2, r2⟩ := pr
          rw [hs] at h
          simp only [Option.some.injEq, Prod.mk.injEq] at h
          obtain ⟨rfl, rfl⟩ := h
          obtain ⟨hl, hm⟩ := ih cs w2 r2 hs
          exact ⟨by simp [hl], by simp [hm, hc]⟩
      · rw [if_neg hc] at h
        cases h

/-- No keyword of the alternation is a (lowercase) prefix of another. -/
theorem keywords_not_comparable :
    ∀ kw ∈ conventionalTypes, ∀ kw2 ∈ conventionalTypes,
    (kw.toList = kw2.toList.take kw.toList.length ∨
     kw2.toList = kw.toList.take kw2.toList.length) → kw = kw2 := by decide

/-- If the message starts (case-insensitively) with keyword `kw`, no other
keyword of the set can also strip from its front. -/
theorem stripCI_unique (kw kw2 : String) (hkw : kw ∈ conventionalTypes)
    (hkw2 : kw2 ∈ conventionalTypes) (w t w2 t2 : List Char)
    (hlow : w.map Char.toLower = kw.toList)
    (hs : stripCI kw2.toList (w ++ t) = some (w2, t2)) : kw2 = kw := by
  obtain ⟨hm2, hlow2⟩ := stripCI_sound kw2.toList (w ++ t) w2 t2 hs
  have h1 : ((w ++ t).map Char.toLower).take kw.toList.length = kw.toList := by
    rw [List.map_append, hlow]
    exact List.take_left kw.toList (t.map Char.toLower)
  have h2 : ((w ++ t).map Char.toLower).take kw2.toList.length = kw2.toList := by
    rw [hm2, List.map_append, hlow2]
    exact List.take_left kw2.toList (t2.map Char.toLower)
  rcases Nat.le_total kw.toList.length kw2.toList.length with hle | hle
  · refine keywords_not_comparable kw2 hkw2 kw hkw (Or.inr ?_)
    calc kw.toList = ((w ++ t).map Char.toLower).take kw.toList.length := h1.symm
      _ = (((w ++ t).map Char.toLower).take kw2.toList.length).take kw.toList.length := by
            rw [List.take_take, Nat.min_eq_left hle]
      _ = kw2.toList.take kw.toList.length := by rw [h2]
  · refine (keywords_not_comparable kw hkw kw2 hkw2 (Or.inr ?_)).symm
    calc kw2.toList = ((w ++ t).map Char.toLower).take kw2.toList.length := h2.symm
      _ = (((w ++ t).map Char.toLower).take kw.toList.length).take kw2.toList.length := by
            rw [List.take_take, Nat.min_eq_left hle]
      _ = kw.toList.take kw2.toList.length := by rw [h1]

theorem findSome?_unique {α β : Type} (L : List α) (f : α → Option β) (a : α) (res : β)
    (ha : a ∈ L) (hf : f a = some res) (huniq : ∀ b ∈ L, b ≠ a → f b = none) :
    L.findSome? f = some res := by
  induction L with
  | nil => cases ha
  | cons x xs ih =>
    by_cases hx : x = a
    · subst hx
      simp [List.findSome?_cons, hf]
    · have hfx : f x = none := huniq x (List.mem_cons_self x xs) hx
      have hmem : a ∈ xs := by
        rcases List.mem_cons.mp ha with h | h
        · exact absurd h.symm hx
        · exact h
      simp only [List.findSome?_cons, hfx]
      exact ih hmem fun b hb hb2 => huniq b (List.mem_cons_of_mem x hb) hb2

/-- The embedded regex recognizes exactly the structural decomposition of a
conventionally-prefixed message, returning the prefix as written. -/
theorem matchConventional_exact
    (kw : String) (hkw : kw ∈ conventionalTypes)
    (kwAs scopePart inner ws rest : List Char)
    (hlow : kwAs.map Char.toLower = kw.toList)
    (hscope : scopePart = [] ∨
      (scopePart = '(' :: (inner ++ [')']) ∧ inner ≠ [] ∧ ∀ c ∈ inner, isWordChar c = true))
    (hws : ∀ c ∈ ws, isJsSpace c = true)
    (hrest : headNotSat isJsSpace rest = true) :
    matchConventional (kwAs ++ (scopePart ++ (':' :: (ws ++ rest)))) =
      some (kwAs ++ (scopePart ++ (':' :: ws)), rest) := by
  have hcw : matchColonWs (':' :: (ws ++ rest)) = some (':' :: ws, rest) := by
    simp [matchColonWs, spanChars_exact isJsSpace ws rest hws hrest]
  have htry : tryKeyword kw (kwAs ++ (scopePart ++ (':' :: (ws ++ rest)))) =
      some (kwAs ++ (scopePart ++ (':' :: ws)), rest) := by
    rcases hscope with rfl | ⟨rfl, hinner, hwc⟩
    · have h1 := stripCI_of_matches kw.toList kwAs (':' :: (ws ++ rest)) hlow
      have hsc : matchScope (':' :: (ws ++ rest)) = none := rfl
      simp only [tryKeyword, List.nil_append, h1, hsc, hcw]
    · have hspan := spanChars_exact isWordChar inner (')' :: (':' :: (ws ++ rest))) hwc rfl
      have hne : inner.isEmpty = false := by
        cases inner with
        | nil => exact absurd rfl hinner
        | cons a as => rfl
      have h1 := stripCI_of_matches kw.toList kwAs
        (('(' :: (inner ++ [')'])) ++ (':' :: (ws ++ rest))) hlow
      have hsc : matchScope (('(' :: (inner ++ [')'])) ++ (':' :: (ws ++ rest))) =
          some ('(' :: (inner ++ [')']), ':' :: (ws ++ rest)) := by
        show matchScope ('(' :: ((inner ++ [')']) ++ (':' :: (ws ++ rest)))) = _
        rw [show (inner ++ [')']) ++ (':' :: (ws ++ rest)) =
            inner ++ (')' :: (':' :: (ws ++ rest))) from by simp]
        simp [matchScope, hspan, hne]
      simp only [List.append_assoc, List.cons_append, List.nil_append] at h1 hsc ⊢
      simp only [tryKeyword, h1, hsc, hcw]
      simp
  have hothers : ∀ kw2 ∈ conventionalTypes, kw2 ≠ kw →
      tryKeyword kw2 (kwAs ++ (scopePart ++ (':' :: (ws ++ rest)))) = none := by
    intro kw2 hkw2 hne2
    unfold tryKeyword
    cases hs : stripCI kw2.toList (kwAs ++ (scopePart ++ (':' :: (ws ++ rest)))) with
    | none => rfl
    | some pr =>
      obtain ⟨w2, t2⟩ := pr
      exact absurd (stripCI_unique kw kw2 hkw hkw2 kwAs (scopePart ++ (':' :: (ws ++ rest)))
        w2 t2 hlow hs) hne2
  exact findSome?_unique conventionalTypes _ kw _ hkw htry hothers

/-- C3: a message consisting of a conventional-commit keyword (any case), an
optional parenthesized scope of word characters and hyphens, a colon and
optional whitespace, followed by the remainder, anonymizes to the prefix
exactly as written concatenated with `'hash_'` and the first 8 hex
characters of the SHA-256 digest of the remainder. -/
theorem anonymizeMessage_preserves_conventional
    (kw : String) (hkw : kw ∈ conventionalTypes)
    (kwAs scopePart inner ws rest : List Char)
    (hlow : kwAs.map Char.toLower = kw.toList)
    (hscope : scopePart = [] ∨
      (scopePart = '(' :: (inner ++ [')']) ∧ inner ≠ [] ∧ ∀ c ∈ inner, isWordChar c = true))
    (hws : ∀ c ∈ ws, isJsSpace c = true)
    (hrest : headNotSat isJsSpace rest = true) :
    anonymizeMessage (some (String.mk (kwAs ++ (scopePart ++ (':' :: (ws ++ rest)))))) =
      String.mk (kwAs ++ (scopePart ++ (':' :: ws))) ++ "hash_" ++
        String.mk ((sha256HexChars (utf8Encode (String.mk rest))).take 8) := by
  have hkwAs : kwAs ≠ [] := by
    intro h
    rw [h] at hlow
    have h2 : kw.toList = [] := hlow.symm
    have h3 : ∀ k ∈ conventionalTypes, k.toList ≠ [] := by decide
    exact h3 kw hkw h2
  have hne : String.mk (kwAs ++ (scopePart ++ (':' :: (ws ++ rest)))) ≠ "" := by
    intro h
    have hdata : kwAs ++ (scopePart ++ (':' :: (ws ++ rest))) = [] := congrArg String.data h
    exact hkwAs (List.append_eq_nil.mp hdata).1
  have hmatch := matchConventional_exact kw hkw kwAs scopePart inner ws rest
    hlow hscope hws hrest
  show (match (some (String.mk (kwAs ++ (scopePart ++ (':' :: (ws ++ rest))))) :
      Option String) with
    | none => "hash_" ++ createConsistentHash "empty" 8
    | some m =>
      if m = "" then "hash_" ++ createConsistentHash "empty" 8
      else
        match matchConventional m.toList with
        | some (pre, content) =>
          String.mk pre ++ "hash_" ++ createConsistentHash (String.mk content) 8
        | none => "hash_" ++ createConsistentHash m 8) = _
  rw [show (match (some (String.mk (kwAs ++ (scopePart ++ (':' :: (ws ++ rest))))) :
      Option String) with
    | none => "hash_" ++ createConsistentHash "empty" 8
    | some m =>
      if m = "" then "hash_" ++ createConsistentHash "empty" 8
      else
        match matchConventional m.toList with
        | some (pre, content) =>
          String.mk pre ++ "hash_" ++ createConsistentHash (String.mk content) 8
        | none => "hash_" ++ createConsistentHash m 8) =
      (if String.mk (kwAs ++ (scopePart ++ (':' :: (ws ++ rest)))) = "" then
        "hash_" ++ createConsistentHash "empty" 8
      else
        match matchConventional (kwAs ++ (scopePart ++ (':' :: (ws ++ rest)))) with
        | some (pre, content) =>
          String.mk pre ++ "hash_" ++ createConsistentHash (String.mk content) 8
        | none =>
          "hash_" ++ createConsistentHash
            (String.mk (kwAs ++ (scopePart ++ (':' :: (ws ++ rest))))) 8) from rfl]
  rw [if_neg hne, hmatch]
  rfl

set_option maxRecDepth 40000 in
theorem anonymizeMessage_preserves_conventional_witness :
    anonymizeMessage (some (String.mk ("fix".toList ++ ("(auth)".toList ++
        (':' :: ([' '] ++ "resolve login issue".toList)))))) =
      String.mk ("fix".toList ++ ("(auth)".toList ++ (':' :: [' ']))) ++ "hash_" ++
        String.mk ((sha256HexChars (utf8Encode (String.mk "resolve login issue".toList))).take 8) :=
  anonymizeMessage_preserves_conventional "fix" (by decide) "fix".toList "(auth)".toList
    "auth".toList [' '] "resolve login issue".toList (by decide) (Or.inr (by decide))
    (by decide) (by decide)

/-! ### C10: the orchestrator anonymizes text with `anonymizeMessage` only -/

theorem joinSep_concat (sep : String) : ∀ (l : List String) (a : String),
    ∃ front, joinSep sep (l ++ [a]) = front ++ a := by
  intro l
  induction l with
  | nil =>
    intro a
    refine ⟨"", ?_⟩
    show a = "" ++ a
    rfl
  | cons s l2 ih =>
    intro a
    cases l2 with
    | nil =>
      refine ⟨s ++ sep, ?_⟩
      show s ++ sep ++ a = s ++ sep ++ a
      rfl
    | cons s2 l3 =>
      obtain ⟨front, hf⟩ := ih a
      refine ⟨s ++ sep ++ front, ?_⟩
      show s ++ sep ++ joinSep sep ((s2 :: l3) ++ [a]) = s ++ sep ++ front ++ a
      rw [hf, String.append_assoc, String.append_assoc, String.append_assoc]

/-- C10: with anonymization enabled, the text component of the commit
message is `anonymizeMessage` of the contribution\'s text for **every**
contribution type (`anonymizeText` is never invoked by the orchestrator), so
a `pr` or `review` text with a recognized conventional prefix keeps that
prefix verbatim in the commit message. -/
theorem buildCommitMessage_text_uses_anonymizeMessage
    (ty : String) (ts : Int) (rep pid tgt url : Option String) (t : String)
    (pre rest : List Char) (ht : t ≠ "")
    (hm : matchConventional t.toList = some (pre, rest)) :
    (∃ front, buildCommitMessage (Contribution.mk ty ts rep pid tgt (some t) url) true =
      front ++ anonymizeMessage (some t)) ∧
    anonymizeMessage (some t) = String.mk pre ++ "hash_" ++
      String.mk ((sha256HexChars (utf8Encode (String.mk rest))).take 8) := by
  constructor
  · have htr : jsTruthy (some t) = true := by
      simp [jsTruthy, ht]
    show ∃ front, joinSep ": " (messageParts (Contribution.mk ty ts rep pid tgt (some t) url)
      true) = front ++ anonymizeMessage (some t)
    rw [show messageParts (Contribution.mk ty ts rep pid tgt (some t) url) true =
        (["[" ++ ty ++ "]"]
          ++ (if jsTruthy rep then [anonymizeRepository rep] else [])
          ++ (if jsTruthy tgt then ["(" ++ tgt.getD "" ++ ")"] else [])
          ++ (if jsTruthy pid then ["\x7b" ++ pid.getD "" ++ "\x7d"] else []))
        ++ [anonymizeMessage (some t)] from by
      simp [messageParts, htr, List.append_assoc]]
    exact joinSep_concat ": " _ _
  · have hm2 : matchConventional t.data = some (pre, rest) := hm
    simp [anonymizeMessage, ht, hm2, createConsistentHash]

set_option maxRecDepth 40000 in
theorem buildCommitMessage_text_uses_anonymizeMessage_witness :
    ((∃ front, buildCommitMessage
        (Contribution.mk "pr" 0 none none none (some "feat: add feature") none) true =
        front ++ anonymizeMessage (some "feat: add feature")) ∧
      anonymizeMessage (some "feat: add feature") = String.mk "feat: ".toList ++ "hash_" ++
        String.mk ((sha256HexChars (utf8Encode (String.mk "add feature".toList))).take 8)) ∧
    containsStr (buildCommitMessage
      (Contribution.mk "pr" 0 none none none (some "feat: add feature") none) true)
      "pr_hash_" = false ∧
    anonymizeText (some "feat: add feature") ContributionKind.pr ≠
      anonymizeMessage (some "feat: add feature") :=
  ⟨buildCommitMessage_text_uses_anonymizeMessage "pr" 0 none none none none
      "feat: add feature" "feat: ".toList "add feature".toList (by decide) (by decide),
    by decide, by decide⟩

end GAT

